import Mathlib

/-!
Verification development for the `extract-audio` tool (`src/main.rs`).

The program unpacks dataset archives whose rows carry a source path, a raw
audio payload and a transcript.  We shallowly embed the row-processing core:

* `write_file`     — collision-avoiding write (main.rs `write_file`, lines 106-131);
* `extractRows`    — the per-row parallel map inside `process_file`, modelled
                     sequentially (lines 169-192);
* `process_file`   — decode + extract + metadata append (lines 133-197);
* `runDir`         — the directory-mode loop of `main` (lines 241-269);
* `mainSingle`     — the single-file branch of `main` (lines 222-230) together
                     with the metadata block (lines 271-298).

Filesystem, wall clock and I/O failures are explicit state: the output
directory is an association list from file names to byte lists, the clock is a
list of microsecond readings consumed at each collision, and `bad` lists the
names at which `File::create` fails.  Paths are strings; since every write
targets `output_dir.join(basename)` we keep only the basename component.
-/

abbrev Bytes := List Nat

/-- Decimal digit character, as produced by Rust's `format!` for a digit. -/
def digitChar : Nat → Char
  | 0 => '0' | 1 => '1' | 2 => '2' | 3 => '3' | 4 => '4'
  | 5 => '5' | 6 => '6' | 7 => '7' | 8 => '8' | _ => '9'

/-- Numeric value of a digit character. -/
def digitVal (c : Char) : Nat := c.toNat - 48

/-- Fuel-driven digit rendering; the fuel only bounds the recursion depth
and any fuel above the digit count yields the same digits. -/
def natToDigitsAux : Nat → Nat → List Char
  | 0, _ => []
  | fuel + 1, n =>
    if n < 10 then [digitChar n]
    else natToDigitsAux fuel (n / 10) ++ [digitChar (n % 10)]

/-- Decimal rendering of a natural number, most significant digit first,
exactly as `format!("{n}")` renders it. -/
def natToDigits (n : Nat) : List Char := natToDigitsAux (n + 1) n

theorem natToDigitsAux_fuel (f1 : Nat) : ∀ f2 n, n < f1 → n < f2 →
    natToDigitsAux f1 n = natToDigitsAux f2 n := by
  induction f1 with
  | zero => intro f2 n h1 _; omega
  | succ f1 ih =>
    intro f2 n h1 h2
    cases f2 with
    | zero => omega
    | succ f2 =>
      show (if n < 10 then [digitChar n]
          else natToDigitsAux f1 (n / 10) ++ [digitChar (n % 10)])
        = (if n < 10 then [digitChar n]
          else natToDigitsAux f2 (n / 10) ++ [digitChar (n % 10)])
      by_cases h : n < 10
      · rw [if_pos h, if_pos h]
      · rw [if_neg h, if_neg h]
        have hd : n / 10 < n := Nat.div_lt_self (by omega) (by omega)
        rw [ih f2 (n / 10) (by omega) (by omega)]

theorem natToDigits_step (n : Nat) :
    natToDigits n = if n < 10 then [digitChar n]
      else natToDigits (n / 10) ++ [digitChar (n % 10)] := by
  show (if n < 10 then [digitChar n]
      else natToDigitsAux n (n / 10) ++ [digitChar (n % 10)]) = _
  by_cases h : n < 10
  · rw [if_pos h, if_pos h]
  · rw [if_neg h, if_neg h]
    have hd : n / 10 < n := Nat.div_lt_self (by omega) (by omega)
    rw [natToDigitsAux_fuel n (n / 10 + 1) (n / 10) (by omega) (by omega)]
    rfl

/-- Left fold reading decimal digits back into a number. -/
def digitsToNatAux (acc : Nat) : List Char → Nat
  | [] => acc
  | c :: cs => digitsToNatAux (acc * 10 + digitVal c) cs

theorem digitVal_digitChar {k : Nat} (h : k < 10) : digitVal (digitChar k) = k := by
  rcases k with _ | _ | _ | _ | _ | _ | _ | _ | _ | _ | k
  · decide
  · decide
  · decide
  · decide
  · decide
  · decide
  · decide
  · decide
  · decide
  · decide
  · omega

theorem digitChar_ne_dash (k : Nat) : digitChar k ≠ '-' := by
  unfold digitChar
  split <;> decide

theorem digitsToNatAux_nil (acc : Nat) : digitsToNatAux acc [] = acc := rfl

theorem digitsToNatAux_cons (acc : Nat) (c : Char) (cs : List Char) :
    digitsToNatAux acc (c :: cs) = digitsToNatAux (acc * 10 + digitVal c) cs := rfl

theorem digitsToNatAux_append (acc : Nat) (l m : List Char) :
    digitsToNatAux acc (l ++ m) = digitsToNatAux (digitsToNatAux acc l) m := by
  induction l generalizing acc with
  | nil => rfl
  | cons c cs ih =>
    rw [List.cons_append, digitsToNatAux_cons, digitsToNatAux_cons]
    exact ih _

theorem natToDigits_ne_nil (n : Nat) : natToDigits n ≠ [] := by
  rw [natToDigits_step]
  split <;> simp

theorem digitsToNat_natToDigits (n : Nat) : digitsToNatAux 0 (natToDigits n) = n := by
  induction n using Nat.strong_induction_on with
  | _ n ih =>
    rw [natToDigits_step]
    split
    · rw [digitsToNatAux_cons, digitsToNatAux_nil, digitVal_digitChar ‹n < 10›]
      omega
    · have hn : ¬ n < 10 := ‹¬ n < 10›
      have hlt : n / 10 < n := Nat.div_lt_self (by omega) (by omega)
      have hmod : n % 10 < 10 := Nat.mod_lt _ (by omega)
      rw [digitsToNatAux_append, ih (n / 10) hlt, digitsToNatAux_cons, digitsToNatAux_nil,
        digitVal_digitChar hmod]
      omega

theorem natToDigits_injective : Function.Injective natToDigits := by
  intro a b h
  have ha := digitsToNat_natToDigits a
  have hb := digitsToNat_natToDigits b
  rw [h, hb] at ha
  exact ha.symm

theorem natToDigits_no_dash (n : Nat) : ∀ c ∈ natToDigits n, c ≠ '-' := by
  induction n using Nat.strong_induction_on with
  | _ n ih =>
    intro c hc
    rw [natToDigits_step] at hc
    split at hc
    · simp at hc
      exact hc ▸ digitChar_ne_dash n
    · rcases List.mem_append.mp hc with h | h
      · exact ih (n / 10) (Nat.div_lt_self (by omega) (by omega)) c h
      · simp at h
        exact h ▸ digitChar_ne_dash (n % 10)

/-- Zero-padded decimal rendering, as produced by `format!("{n:04}")`. -/
def pad4 (n : Nat) : List Char :=
  List.replicate (4 - (natToDigits n).length) '0' ++ natToDigits n

theorem digitsToNatAux_zero_replicate (k : Nat) (l : List Char) :
    digitsToNatAux 0 (List.replicate k '0' ++ l) = digitsToNatAux 0 l := by
  induction k with
  | zero => rfl
  | succ k ih =>
    rw [List.replicate_succ, List.cons_append, digitsToNatAux_cons]
    have hv : (0 : Nat) * 10 + digitVal '0' = 0 := by decide
    rw [hv]
    exact ih

theorem pad4_injective : Function.Injective pad4 := by
  intro a b h
  have ha := digitsToNatAux_zero_replicate (4 - (natToDigits a).length) (natToDigits a)
  have hb := digitsToNatAux_zero_replicate (4 - (natToDigits b).length) (natToDigits b)
  rw [show List.replicate (4 - (natToDigits a).length) '0' ++ natToDigits a = pad4 a from rfl]
    at ha
  rw [show List.replicate (4 - (natToDigits b).length) '0' ++ natToDigits b = pad4 b from rfl]
    at hb
  rw [h, hb] at ha
  have ha2 := digitsToNat_natToDigits a
  have hb2 := digitsToNat_natToDigits b
  omega

theorem pad4_no_dash (n : Nat) : ∀ c ∈ pad4 n, c ≠ '-' := by
  intro c hc
  rcases List.mem_append.mp hc with h | h
  · have := List.eq_of_mem_replicate h
    subst this
    decide
  · exact natToDigits_no_dash n c h

theorem pad4_ne_nil (n : Nat) : pad4 n ≠ [] := by
  intro h
  have := natToDigits_ne_nil n
  simp [pad4] at h
  exact this h.2

/-- Collision-resolved file name, as built by `write_file`:
`format!("{timestamp}-{counter:04}-{original_name}")` (main.rs line 119). -/
def collName (ts ctr : Nat) (base : String) : String :=
  ⟨natToDigits ts ++ '-' :: (pad4 ctr ++ '-' :: base.data)⟩

/-- Character test used to cut a rendered name at the first dash. -/
def notDash (c : Char) : Bool := c != '-'

theorem takeWhile_no_dash (l r : List Char) (hl : ∀ c ∈ l, c ≠ '-') :
    (l ++ '-' :: r).takeWhile notDash = l := by
  induction l with
  | nil => simp [List.takeWhile, notDash]
  | cons c cs ih =>
    have hc : notDash c = true := by
      have := hl c (by simp)
      simp [notDash, this]
    simp only [List.cons_append, List.takeWhile_cons, hc, if_true]
    rw [ih fun d hd => hl d (by simp [hd])]

theorem dropWhile_no_dash (l r : List Char) (hl : ∀ c ∈ l, c ≠ '-') :
    (l ++ '-' :: r).dropWhile notDash = '-' :: r := by
  induction l with
  | nil => simp [List.dropWhile, notDash]
  | cons c cs ih =>
    have hc : notDash c = true := by
      have := hl c (by simp)
      simp [notDash, this]
    simp only [List.cons_append, List.dropWhile_cons, hc, if_true]
    exact ih fun d hd => hl d (by simp [hd])

theorem collName_inj {t1 c1 t2 c2 : Nat} {b : String}
    (h : collName t1 c1 b = collName t2 c2 b) : t1 = t2 ∧ c1 = c2 := by
  have hdata : natToDigits t1 ++ '-' :: (pad4 c1 ++ '-' :: b.data)
      = natToDigits t2 ++ '-' :: (pad4 c2 ++ '-' :: b.data) := congrArg String.data h
  have htake := congrArg (List.takeWhile notDash) hdata
  rw [takeWhile_no_dash _ _ (natToDigits_no_dash t1),
    takeWhile_no_dash _ _ (natToDigits_no_dash t2)] at htake
  have hdrop := congrArg (List.dropWhile notDash) hdata
  rw [dropWhile_no_dash _ _ (natToDigits_no_dash t1),
    dropWhile_no_dash _ _ (natToDigits_no_dash t2)] at hdrop
  have hrest : pad4 c1 ++ '-' :: b.data = pad4 c2 ++ '-' :: b.data := by
    injection hdrop
  have htake2 := congrArg (List.takeWhile notDash) hrest
  rw [takeWhile_no_dash _ _ (pad4_no_dash c1), takeWhile_no_dash _ _ (pad4_no_dash c2)]
    at htake2
  exact ⟨natToDigits_injective htake, pad4_injective htake2⟩

theorem collName_ne_base (ts ctr : Nat) (b : String) : collName ts ctr b ≠ b := by
  intro h
  have hdata := congrArg (fun s : String => s.data.length) h
  simp only [collName, List.length_append, List.length_cons] at hdata
  have h1 : 0 < (natToDigits ts).length := List.length_pos.mpr (natToDigits_ne_nil ts)
  have h2 : 0 < (pad4 ctr).length := List.length_pos.mpr (pad4_ne_nil ctr)
  omega

/-- Last path component of a path string: the model of Rust's
`Path::file_name` for ordinary paths (no trailing slash, no `..`/`.`
final component — the shape of dataset source paths). -/
def basenameChars (cs : List Char) : List Char :=
  (cs.reverse.takeWhile (fun c => c != '/')).reverse

/-- Index of the last dot of a file name, if any. -/
def lastDot : List Char → Option Nat
  | [] => none
  | c :: cs =>
    match lastDot cs with
    | some i => some (i + 1)
    | none => if c = '.' then some 0 else none

/-- Splitting of a file name into Rust's `file_stem` and `extension`:
the extension is the part after the last dot, except that a leading dot
(hidden files) or a dotless name yields no extension. -/
def splitName (cs : List Char) : List Char × Option (List Char) :=
  match lastDot cs with
  | none => (cs, none)
  | some 0 => (cs, none)
  | some (i + 1) => (cs.take (i + 1), some (cs.drop (i + 2)))

theorem lastDot_drop {cs : List Char} {i : Nat} (h : lastDot cs = some i) :
    cs.drop i = '.' :: cs.drop (i + 1) := by
  induction cs generalizing i with
  | nil => simp [lastDot] at h
  | cons c rest ih =>
    simp only [lastDot] at h
    cases hrest : lastDot rest with
    | some j =>
      rw [hrest] at h
      injection h with h
      subst h
      rw [List.drop_succ_cons, ih hrest, List.drop_succ_cons]
    | none =>
      rw [hrest] at h
      by_cases hc : c = '.'
      · simp only [hc, if_true] at h
        injection h with h
        subst h
        simp [hc]
      · simp [hc] at h

theorem splitName_some {cs st ex : List Char}
    (h : splitName cs = (st, some ex)) : cs = st ++ '.' :: ex := by
  unfold splitName at h
  cases hld : lastDot cs with
  | none => rw [hld] at h; simp at h
  | some i =>
    rw [hld] at h
    cases i with
    | zero => simp at h
    | succ j =>
      simp only [Prod.mk.injEq, Option.some.injEq] at h
      obtain ⟨hst, hex⟩ := h
      have hdrop := lastDot_drop hld
      calc cs = cs.take (j + 1) ++ cs.drop (j + 1) := (List.take_append_drop _ _).symm
        _ = st ++ '.' :: ex := by rw [hst, hdrop, hex]

theorem splitName_none {cs st : List Char}
    (h : splitName cs = (st, none)) : st = cs := by
  unfold splitName at h
  cases hld : lastDot cs with
  | none => rw [hld] at h; exact (Prod.mk.injEq _ _ _ _ ▸ h).1.symm
  | some i =>
    rw [hld] at h
    cases i with
    | zero => exact (Prod.mk.injEq _ _ _ _ ▸ h).1.symm
    | succ j => simp at h

/-- Candidate output name for a row, as derived in `process_file`
(main.rs lines 172-181): `format!("{}.{}", file_stem, extension)` of the
row's source path, where a missing stem or extension renders as the empty
string (`unwrap_or_default`).  The candidate is then joined under the
output directory; we keep the name component. -/
def candidateName (p : String) : String :=
  let name := basenameChars p.data
  let se := splitName name
  ⟨se.1 ++ '.' :: (se.2.getD [])⟩

/-- Contents of the output directory: file name to byte contents. -/
abbrev Fs := List (String × Bytes)

def lookupFile : Fs → String → Option Bytes
  | [], _ => none
  | (m, d) :: rest, n => if m = n then some d else lookupFile rest n

/-- Model of `File::create` + `write_all`: creates or truncates-and-replaces. -/
def setFile : Fs → String → Bytes → Fs
  | [], n, d => [(n, d)]
  | (m, e) :: rest, n, d =>
    if m = n then (n, d) :: rest else (m, e) :: setFile rest n d

/-- Model of `Path::try_exists`. -/
def existsFile (fs : Fs) (n : String) : Bool := (lookupFile fs n).isSome

/-- Whole-run state threaded through the model: the output directory, the
process-wide `UNIQUE_FILENAME_COUNTER`, the wall clock (a list of microsecond
readings, one consumed per collision), the set of names at which
`File::create` fails, the mutex-guarded metadata records, the error log
(stderr), the progress log (stdout) and the optionally written metadata
file. -/
structure S where
  files : Fs
  counter : Nat
  clock : List Nat
  bad : List String
  metadata : List (String × String)
  elog : List String
  out : List String
  metaOut : Option (List (String × String))
deriving DecidableEq

/-- Model of `write_file` (main.rs lines 106-131): if the candidate exists,
retarget to `{timestamp}-{counter:04}-{name}` with a fresh counter value;
then `File::create` and write (which fails exactly on the `bad` names). -/
def write_file (s : S) (filename : String) (data : Bytes) :
    Except String (String × S) :=
  if existsFile s.files filename then
    if s.bad.contains (collName (s.clock.headD 0) s.counter filename) then
      Except.error "write failed"
    else
      Except.ok (collName (s.clock.headD 0) s.counter filename,
        { s with counter := s.counter + 1, clock := s.clock.tail,
                 files := setFile s.files (collName (s.clock.headD 0) s.counter filename) data })
  else
    if s.bad.contains filename then Except.error "write failed"
    else Except.ok (filename, { s with files := setFile s.files filename data })

/-- One decoded table row; each required field may be null. -/
structure Row where
  path : Option String
  bytes : Option Bytes
  transcription : Option String
deriving DecidableEq

/-- A decoded table (the `path`, `bytes`, `transcription` series of the
DataFrame, viewed row-wise). -/
abbrev Table := List Row

structure GoodRow where
  path : String
  bytes : Bytes
  transcription : String
deriving DecidableEq

/-- The `filter_map` of `process_file` (main.rs lines 154-167): keep the rows
whose three required fields are all present. -/
def presentRows (t : Table) : List GoodRow :=
  t.filterMap fun r =>
    match r.path, r.transcription, r.bytes with
    | some p, some tr, some b => some ⟨p, b, tr⟩
    | _, _, _ => none

/-- Result of a computation that can fail recoverably (a Rust `Err`) or
abort the whole process (a panic from `.expect`). -/
inductive Outcome (α : Type) where
  | ok (a : α)
  | err (e : String)
  | fatal (e : String)
deriving DecidableEq

/-- The row-extraction map of `process_file` (main.rs lines 169-192),
modelled sequentially: derive the candidate name, `write_file` the payload
— where `.expect("Failed to write audio file")` turns a write error into a
process abort — and pair the final name with the transcription. -/
def extractRows (s : S) : List GoodRow → Outcome (List (String × String) × S)
  | [] => Outcome.ok ([], s)
  | r :: rest =>
    match write_file s (candidateName r.path) r.bytes with
    | Except.error e => Outcome.fatal e
    | Except.ok (target, s1) =>
      match extractRows s1 rest with
      | Outcome.ok (ms, s2) => Outcome.ok ((target, r.transcription) :: ms, s2)
      | Outcome.err e => Outcome.err e
      | Outcome.fatal e => Outcome.fatal e

/-- Model of `process_file` (main.rs lines 133-197).  Decoding and column
validation are performed by the external table provider, so the input is the
decode outcome; on success the present rows are extracted, the local
metadata is appended to the shared records, and the table height — not the
present-row count — is returned. -/
def process_file (decoded : Except String Table) (s : S) : Outcome (Nat × S) :=
  match decoded with
  | Except.error e => Outcome.err e
  | Except.ok t =>
    match extractRows s (presentRows t) with
    | Outcome.ok (ms, s1) =>
      Outcome.ok (t.length, { s1 with metadata := s1.metadata ++ ms })
    | Outcome.err e => Outcome.err e
    | Outcome.fatal e => Outcome.fatal e

def processingLine : String := "Processing file..."

def totalLine (n : Nat) : String := "Total number of rows processed: " ++ toString n

def doneLine : String := "Done!"

/-- The directory-mode loop of `main` (main.rs lines 254-263): print a
progress line, process the file, accumulate its row count on success, log
the error and continue on failure. -/
def runDir : S → List (Except String Table) → Outcome (Nat × S)
  | s, [] => Outcome.ok (0, s)
  | s, d :: rest =>
    let s0 : S := { s with out := s.out ++ [processingLine] }
    match process_file d s0 with
    | Outcome.ok (n, s1) =>
      match runDir s1 rest with
      | Outcome.ok (m, s2) => Outcome.ok (n + m, s2)
      | o => o
    | Outcome.err e =>
      match runDir { s0 with elog := s0.elog ++ [e] } rest with
      | Outcome.ok (m, s2) => Outcome.ok (m, s2)
      | o => o
    | Outcome.fatal e => Outcome.fatal e

/-- Result of `main`: normal exit, an `Err` propagated out of `main` (the
state records what had happened up to that point), or a process abort. -/
inductive MainOut where
  | ok (s : S)
  | fail (e : String) (s : S)
  | fatal (e : String)
deriving DecidableEq

/-- The metadata block at the end of `main` (main.rs lines 271-298): write
the metadata file only when one was requested and there is at least one
record. -/
def writeMeta (metaWanted : Bool) (s : S) : S :=
  if metaWanted && !s.metadata.isEmpty then { s with metaOut := some s.metadata } else s

/-- The single-file branch of `main` (main.rs lines 222-230) followed by the
metadata block: a `process_file` error propagates out of `main` through `?`
before the total-row line is printed or the metadata file is written. -/
def mainSingle (decoded : Except String Table) (metaWanted : Bool) (s : S) : MainOut :=
  let s0 : S := { s with out := s.out ++ [processingLine] }
  match process_file decoded s0 with
  | Outcome.ok (n, s1) =>
    let s2 : S := { s1 with out := s1.out ++ [totalLine n] }
    let s3 := writeMeta metaWanted s2
    MainOut.ok { s3 with out := s3.out ++ [doneLine] }
  | Outcome.err e => MainOut.fail e s0
  | Outcome.fatal e => MainOut.fatal e

inductive Format where
  | arrow
  | parquet
deriving DecidableEq

/-- One immediate entry of the input directory. -/
structure DirEntry where
  name : String
  isFile : Bool
deriving DecidableEq

/-- Extension of a path, as `entry.path().extension()`. -/
def extOf (name : String) : Option (List Char) := (splitName (basenameChars name.data)).2

/-- The directory-entry filter of `main` (main.rs lines 243-249): regular
files whose extension is `parquet` or `arrow` — independently of the
configured format (the code carries a TODO noting this). -/
def entryMatches (e : DirEntry) : Bool :=
  e.isFile &&
    (match extOf e.name with
     | some ex => ex == "parquet".data || ex == "arrow".data
     | none => false)

def selectFiles (entries : List DirEntry) : List DirEntry :=
  entries.filter entryMatches

def fmtExtensionChars : Format → List Char
  | Format.arrow => "arrow".data
  | Format.parquet => "parquet".data

/-- Stated from the spec sentence, for comparison with `selectFiles`:
select exactly the regular files whose extension matches the configured
container format. -/
def selectFilesSpec (fmt : Format) (entries : List DirEntry) : List DirEntry :=
  entries.filter fun e =>
    e.isFile &&
      (match extOf e.name with
       | some ex => ex == fmtExtensionChars fmt
       | none => false)

theorem lookupFile_setFile (fs : Fs) (t : String) (d : Bytes) (n : String) :
    lookupFile (setFile fs t d) n = if t = n then some d else lookupFile fs n := by
  induction fs with
  | nil => simp [setFile, lookupFile]
  | cons p rest ih =>
    obtain ⟨m, e⟩ := p
    by_cases hmt : m = t
    · subst hmt
      simp only [setFile, if_true, lookupFile]
      split_ifs <;> simp_all [lookupFile]
    · simp only [setFile, hmt, if_false, lookupFile]
      split_ifs <;> simp_all [lookupFile]

theorem existsFile_setFile (fs : Fs) (t : String) (d : Bytes) (n : String) :
    existsFile (setFile fs t d) n = (t = n || existsFile fs n) := by
  simp only [existsFile, lookupFile_setFile]
  split_ifs <;> simp_all

theorem existsFile_setFile_of (fs : Fs) (t : String) (d : Bytes) {n : String}
    (h : existsFile fs n = true) : existsFile (setFile fs t d) n = true := by
  simp [existsFile_setFile, h]

/-- Case analysis on a successful `write_file`: either the candidate was
free and is claimed, or it existed and the timestamp-counter name is
claimed instead (with the counter consumed). -/
theorem write_file_ok_cases {s : S} {c : String} {d : Bytes} {t : String} {s1 : S}
    (h : write_file s c d = Except.ok (t, s1)) :
    (existsFile s.files c = false ∧ t = c ∧
      s1 = { s with files := setFile s.files c d })
    ∨ (existsFile s.files c = true ∧
      t = collName (s.clock.headD 0) s.counter c ∧
      s1 = { s with
              counter := s.counter + 1
              clock := s.clock.tail
              files := setFile s.files t d }) := by
  unfold write_file at h
  by_cases h1 : existsFile s.files c
  · rw [if_pos h1] at h
    by_cases h2 : s.bad.contains (collName (s.clock.headD 0) s.counter c)
    · rw [if_pos h2] at h
      exact absurd h (by simp)
    · rw [if_neg h2] at h
      injection h with h
      injection h with h3 h4
      exact Or.inr ⟨h1, h3.symm, by rw [← h4, ← h3]⟩
  · rw [if_neg h1] at h
    by_cases h2 : s.bad.contains c
    · rw [if_pos h2] at h
      exact absurd h (by simp)
    · rw [if_neg h2] at h
      injection h with h
      injection h with h3 h4
      exact Or.inl ⟨by simp [h1], h3.symm, by rw [← h4]⟩

theorem write_file_ok_inv {s : S} {c : String} {d : Bytes} {t : String} {s1 : S}
    (h : write_file s c d = Except.ok (t, s1)) :
    s1.files = setFile s.files t d ∧ s1.bad = s.bad ∧ s1.metadata = s.metadata ∧
      s1.elog = s.elog ∧ s1.out = s.out ∧ s1.metaOut = s.metaOut := by
  rcases write_file_ok_cases h with ⟨_, ht, hs⟩ | ⟨_, ht, hs⟩ <;> subst ht <;> subst hs <;>
    exact ⟨rfl, rfl, rfl, rfl, rfl, rfl⟩

theorem write_file_fresh {s : S} {c : String} (d : Bytes)
    (h1 : existsFile s.files c = false) (h2 : s.bad.contains c = false) :
    write_file s c d = Except.ok (c, { s with files := setFile s.files c d }) := by
  unfold write_file
  rw [if_neg (by simp [h1]), if_neg (by simpa using h2)]

theorem write_file_collide {s : S} {c : String} (d : Bytes)
    (h1 : existsFile s.files c = true)
    (h2 : s.bad.contains (collName (s.clock.headD 0) s.counter c) = false) :
    write_file s c d = Except.ok (collName (s.clock.headD 0) s.counter c,
      { s with
          counter := s.counter + 1
          clock := s.clock.tail
          files := setFile s.files (collName (s.clock.headD 0) s.counter c) d }) := by
  unfold write_file
  rw [if_pos (by simp [h1]), if_neg (by simpa using h2)]

theorem extractRows_nil (s : S) : extractRows s [] = Outcome.ok ([], s) := rfl

theorem extractRows_cons (s : S) (r : GoodRow) (rest : List GoodRow) :
    extractRows s (r :: rest) =
      match write_file s (candidateName r.path) r.bytes with
      | Except.error e => Outcome.fatal e
      | Except.ok (target, s1) =>
        match extractRows s1 rest with
        | Outcome.ok (ms, s2) => Outcome.ok ((target, r.transcription) :: ms, s2)
        | Outcome.err e => Outcome.err e
        | Outcome.fatal e => Outcome.fatal e := rfl

theorem extractRows_cons_error {s : S} {r : GoodRow} {rest : List GoodRow} {e : String}
    (hw : write_file s (candidateName r.path) r.bytes = Except.error e) :
    extractRows s (r :: rest) = Outcome.fatal e := by
  rw [extractRows_cons, hw]

theorem extractRows_cons_ok {s : S} {r : GoodRow} {rest : List GoodRow}
    {t : String} {s1 : S}
    (hw : write_file s (candidateName r.path) r.bytes = Except.ok (t, s1)) :
    extractRows s (r :: rest) =
      match extractRows s1 rest with
      | Outcome.ok (ms, s2) => Outcome.ok ((t, r.transcription) :: ms, s2)
      | Outcome.err e => Outcome.err e
      | Outcome.fatal e => Outcome.fatal e := by
  rw [extractRows_cons, hw]

theorem extractRows_ne_err (s : S) (rows : List GoodRow) (e : String) :
    extractRows s rows ≠ Outcome.err e := by
  induction rows generalizing s e with
  | nil => rw [extractRows_nil]; simp
  | cons r rest ih =>
    cases hw : write_file s (candidateName r.path) r.bytes with
    | error e2 => rw [extractRows_cons_error hw]; simp
    | ok p =>
      obtain ⟨t, s1⟩ := p
      rw [extractRows_cons_ok hw]
      cases hr : extractRows s1 rest with
      | ok q => obtain ⟨ms1, s3⟩ := q; simp
      | err e2 => exact absurd hr (ih s1 e2)
      | fatal e2 => simp

theorem extractRows_ok_inv {s : S} {rows : List GoodRow}
    {ms : List (String × String)} {s2 : S}
    (h : extractRows s rows = Outcome.ok (ms, s2)) :
    ms.length = rows.length ∧ s2.metadata = s.metadata ∧ s2.elog = s.elog ∧
      s2.bad = s.bad ∧ s2.out = s.out ∧ s2.metaOut = s.metaOut := by
  induction rows generalizing s ms with
  | nil =>
    rw [extractRows_nil] at h
    simp only [Outcome.ok.injEq, Prod.mk.injEq] at h
    obtain ⟨h1, h2⟩ := h
    subst h1; subst h2
    exact ⟨rfl, rfl, rfl, rfl, rfl, rfl⟩
  | cons r rest ih =>
    cases hw : write_file s (candidateName r.path) r.bytes with
    | error e2 =>
      rw [extractRows_cons_error hw] at h
      exact absurd h (by simp)
    | ok p =>
      obtain ⟨t, s1⟩ := p
      rw [extractRows_cons_ok hw] at h
      cases hr : extractRows s1 rest with
      | ok q =>
        obtain ⟨ms1, s3⟩ := q
        rw [hr] at h
        simp only [Outcome.ok.injEq, Prod.mk.injEq] at h
        obtain ⟨h1, h2⟩ := h
        subst h2
        obtain ⟨hl, hm, he, hb, ho, hmo⟩ := ih hr
        obtain ⟨_, wb, wm, we, wo, wmo⟩ := write_file_ok_inv hw
        subst h1
        refine ⟨by simp [hl], ?_, ?_, ?_, ?_, ?_⟩ <;> simp_all
      | err e2 => exact absurd hr (extractRows_ne_err s1 rest e2)
      | fatal e2 => rw [hr] at h; exact absurd h (by simp)

theorem extractRows_untouched {s : S} {rows : List GoodRow}
    {ms : List (String × String)} {s2 : S}
    (h : extractRows s rows = Outcome.ok (ms, s2)) :
    ∀ n, n ∉ ms.map Prod.fst → lookupFile s2.files n = lookupFile s.files n := by
  induction rows generalizing s ms with
  | nil =>
    rw [extractRows_nil] at h
    simp only [Outcome.ok.injEq, Prod.mk.injEq] at h
    obtain ⟨h1, h2⟩ := h
    subst h1; subst h2
    intro n _
    rfl
  | cons r rest ih =>
    cases hw : write_file s (candidateName r.path) r.bytes with
    | error e2 =>
      rw [extractRows_cons_error hw] at h
      exact absurd h (by simp)
    | ok p =>
      obtain ⟨t, s1⟩ := p
      rw [extractRows_cons_ok hw] at h
      cases hr : extractRows s1 rest with
      | ok q =>
        obtain ⟨ms1, s3⟩ := q
        rw [hr] at h
        simp only [Outcome.ok.injEq, Prod.mk.injEq] at h
        obtain ⟨h1, h2⟩ := h
        subst h2
        subst h1
        intro n hn
        simp only [List.map_cons, List.mem_cons] at hn
        push_neg at hn
        obtain ⟨hnt, hnms⟩ := hn
        rw [ih hr n hnms]
        obtain ⟨hf, _, _, _, _, _⟩ := write_file_ok_inv hw
        rw [hf, lookupFile_setFile, if_neg fun ht => hnt ht.symm]
      | err e2 => exact absurd hr (extractRows_ne_err s1 rest e2)
      | fatal e2 => rw [hr] at h; exact absurd h (by simp)

/-- Round trip under distinct targets: after a successful extraction run in
which all resolved target names are distinct, every target holds exactly the
payload of its row. -/
theorem extractRows_roundtrip {s : S} {rows : List GoodRow}
    {ms : List (String × String)} {s2 : S}
    (h : extractRows s rows = Outcome.ok (ms, s2))
    (hnd : (ms.map Prod.fst).Nodup) :
    ∀ pr ∈ List.zip (ms.map Prod.fst) (rows.map GoodRow.bytes),
      lookupFile s2.files pr.1 = some pr.2 := by
  induction rows generalizing s ms with
  | nil =>
    rw [extractRows_nil] at h
    simp only [Outcome.ok.injEq, Prod.mk.injEq] at h
    obtain ⟨h1, h2⟩ := h
    subst h1
    simp
  | cons r rest ih =>
    cases hw : write_file s (candidateName r.path) r.bytes with
    | error e2 =>
      rw [extractRows_cons_error hw] at h
      exact absurd h (by simp)
    | ok p =>
      obtain ⟨t, s1⟩ := p
      rw [extractRows_cons_ok hw] at h
      cases hr : extractRows s1 rest with
      | ok q =>
        obtain ⟨ms1, s3⟩ := q
        rw [hr] at h
        simp only [Outcome.ok.injEq, Prod.mk.injEq] at h
        obtain ⟨h1, h2⟩ := h
        subst h2
        subst h1
        simp only [List.map_cons, List.nodup_cons] at hnd
        obtain ⟨hnt, hnd1⟩ := hnd
        intro pr hpr
        simp only [List.map_cons, List.zip_cons_cons, List.mem_cons] at hpr
        rcases hpr with hpr | hpr
        · subst hpr
          rw [extractRows_untouched hr t hnt]
          obtain ⟨hf, _, _, _, _, _⟩ := write_file_ok_inv hw
          rw [hf, lookupFile_setFile, if_pos rfl]
        · exact ih hr hnd1 pr hpr
      | err e2 => exact absurd hr (extractRows_ne_err s1 rest e2)
      | fatal e2 => rw [hr] at h; exact absurd h (by simp)

theorem process_file_error (e : String) (s : S) :
    process_file (Except.error e) s = Outcome.err e := rfl

theorem process_file_table (t : Table) (s : S) :
    process_file (Except.ok t) s =
      match extractRows s (presentRows t) with
      | Outcome.ok (ms, s1) =>
        Outcome.ok (t.length, { s1 with metadata := s1.metadata ++ ms })
      | Outcome.err e => Outcome.err e
      | Outcome.fatal e => Outcome.fatal e := rfl

theorem process_file_ok_inv {d : Except String Table} {s : S} {n : Nat} {s1 : S}
    (h : process_file d s = Outcome.ok (n, s1)) :
    ∃ t ms s2, d = Except.ok t ∧
      extractRows s (presentRows t) = Outcome.ok (ms, s2) ∧
      n = t.length ∧ s1 = { s2 with metadata := s2.metadata ++ ms } := by
  cases d with
  | error e => rw [process_file_error] at h; exact absurd h (by simp)
  | ok t =>
    rw [process_file_table] at h
    cases hx : extractRows s (presentRows t) with
    | ok q =>
      obtain ⟨ms, s2⟩ := q
      rw [hx] at h
      simp only [Outcome.ok.injEq, Prod.mk.injEq] at h
      obtain ⟨h1, h2⟩ := h
      exact ⟨t, ms, s2, rfl, hx, h1.symm, h2.symm⟩
    | err e => exact absurd hx (extractRows_ne_err s (presentRows t) e)
    | fatal e => rw [hx] at h; exact absurd h (by simp)

theorem process_file_err_inv {d : Except String Table} {s : S} {e : String}
    (h : process_file d s = Outcome.err e) : d = Except.error e := by
  cases d with
  | error e2 =>
    rw [process_file_error] at h
    injection h with h
    rw [h]
  | ok t =>
    rw [process_file_table] at h
    cases hx : extractRows s (presentRows t) with
    | ok q => obtain ⟨ms, s2⟩ := q; rw [hx] at h; exact absurd h (by simp)
    | err e2 => exact absurd hx (extractRows_ne_err s (presentRows t) e2)
    | fatal e2 => rw [hx] at h; exact absurd h (by simp)

/-- Row count of a file as seen by directory-mode accumulation: the height
of its decoded table, or zero if it fails to decode. -/
def tableRows : Except String Table → Nat
  | Except.ok t => t.length
  | Except.error _ => 0

/-- Number of metadata records a file contributes: its present rows, or
zero if it fails to decode. -/
def metaCount : Except String Table → Nat
  | Except.ok t => (presentRows t).length
  | Except.error _ => 0

/-- Number of error-log lines a file contributes in directory mode. -/
def errCount : Except String Table → Nat
  | Except.ok _ => 0
  | Except.error _ => 1

theorem process_file_ok_sums {d : Except String Table} {s : S} {k : Nat} {smid : S}
    (h : process_file d s = Outcome.ok (k, smid)) :
    k = tableRows d ∧ smid.metadata.length = s.metadata.length + metaCount d ∧
      smid.elog = s.elog ∧ smid.bad = s.bad ∧ errCount d = 0 := by
  obtain ⟨t, ms, s2, hd, hx, hk, hs⟩ := process_file_ok_inv h
  subst hd
  subst hk
  subst hs
  obtain ⟨hl, hm, he, hb, _, _⟩ := extractRows_ok_inv hx
  refine ⟨rfl, ?_, he, hb, rfl⟩
  simp only [List.length_append, hm, hl, tableRows, metaCount]

theorem runDir_nil (s : S) : runDir s [] = Outcome.ok (0, s) := rfl

theorem runDir_cons (s : S) (d : Except String Table)
    (rest : List (Except String Table)) :
    runDir s (d :: rest) =
      match process_file d { s with out := s.out ++ [processingLine] } with
      | Outcome.ok (n, s1) =>
        match runDir s1 rest with
        | Outcome.ok (m, s2) => Outcome.ok (n + m, s2)
        | o => o
      | Outcome.err e =>
        match runDir { s with
            out := s.out ++ [processingLine]
            elog := s.elog ++ [e] } rest with
        | Outcome.ok (m, s2) => Outcome.ok (m, s2)
        | o => o
      | Outcome.fatal e => Outcome.fatal e := rfl

theorem runDir_cons_ok {s : S} {d : Except String Table}
    {rest : List (Except String Table)} {k : Nat} {smid : S}
    (hpf : process_file d { s with out := s.out ++ [processingLine] }
      = Outcome.ok (k, smid)) :
    runDir s (d :: rest) =
      match runDir smid rest with
      | Outcome.ok (m, s2) => Outcome.ok (k + m, s2)
      | o => o := by
  rw [runDir_cons, hpf]

theorem runDir_cons_err {s : S} {d : Except String Table}
    {rest : List (Except String Table)} {e : String}
    (hpf : process_file d { s with out := s.out ++ [processingLine] }
      = Outcome.err e) :
    runDir s (d :: rest) =
      match runDir { s with
          out := s.out ++ [processingLine]
          elog := s.elog ++ [e] } rest with
      | Outcome.ok (m, s2) => Outcome.ok (m, s2)
      | o => o := by
  rw [runDir_cons, hpf]

theorem runDir_cons_fatal {s : S} {d : Except String Table}
    {rest : List (Except String Table)} {e : String}
    (hpf : process_file d { s with out := s.out ++ [processingLine] }
      = Outcome.fatal e) :
    runDir s (d :: rest) = Outcome.fatal e := by
  rw [runDir_cons, hpf]

/-- Accounting for a completed directory run: the returned total is the sum
of the decoded table heights, the metadata grows by the present rows of the
decoded files, and the error log grows by one line per failed file. -/
theorem runDir_ok_inv {s : S} {inputs : List (Except String Table)} {n : Nat} {s1 : S}
    (h : runDir s inputs = Outcome.ok (n, s1)) :
    n = (inputs.map tableRows).sum ∧
      s1.metadata.length = s.metadata.length + (inputs.map metaCount).sum ∧
      s1.elog.length = s.elog.length + (inputs.map errCount).sum := by
  induction inputs generalizing s n with
  | nil =>
    rw [runDir_nil] at h
    simp only [Outcome.ok.injEq, Prod.mk.injEq] at h
    obtain ⟨h1, h2⟩ := h
    subst h2
    simp [← h1]
  | cons d rest ih =>
    cases hpf : process_file d { s with out := s.out ++ [processingLine] } with
    | ok p =>
      obtain ⟨k, smid⟩ := p
      rw [runDir_cons_ok hpf] at h
      cases hrd : runDir smid rest with
      | ok q =>
        obtain ⟨m, s2⟩ := q
        rw [hrd] at h
        simp only [Outcome.ok.injEq, Prod.mk.injEq] at h
        obtain ⟨h1, h2⟩ := h
        subst h2
        obtain ⟨hm, hmd2, hel2⟩ := ih hrd
        obtain ⟨hk, hmd1, hel1, _, hec⟩ := process_file_ok_sums hpf
        have hred1 : ({ s with out := s.out ++ [processingLine] } : S).metadata
            = s.metadata := rfl
        have hred2 : ({ s with out := s.out ++ [processingLine] } : S).elog
            = s.elog := rfl
        rw [hred1] at hmd1
        rw [hred2] at hel1
        simp only [List.map_cons, List.sum_cons]
        refine ⟨by omega, ?_, ?_⟩
        · rw [hmd2, hmd1]
          omega
        · rw [hel2, hel1, hec]
          omega
      | err e => rw [hrd] at h; exact absurd h (by simp)
      | fatal e => rw [hrd] at h; exact absurd h (by simp)
    | err e =>
      rw [runDir_cons_err hpf] at h
      have hd := process_file_err_inv hpf
      subst hd
      cases hrd : runDir { s with
          out := s.out ++ [processingLine]
          elog := s.elog ++ [e] } rest with
      | ok q =>
        obtain ⟨m, s2⟩ := q
        rw [hrd] at h
        simp only [Outcome.ok.injEq, Prod.mk.injEq] at h
        obtain ⟨h1, h2⟩ := h
        subst h2
        obtain ⟨hm, hmd2, hel2⟩ := ih hrd
        simp only [List.map_cons, List.sum_cons, tableRows, metaCount, errCount]
        refine ⟨by omega, by rw [hmd2]; simp, ?_⟩
        rw [hel2]
        simp only [List.length_append, List.length_singleton]
        omega
      | err e2 => rw [hrd] at h; exact absurd h (by simp)
      | fatal e2 => rw [hrd] at h; exact absurd h (by simp)
    | fatal e =>
      rw [runDir_cons_fatal hpf] at h
      exact absurd h (by simp)

/-- A sequence of `write_file` operations in one run, returning the claimed
target paths in order (a write failure aborts, as in the source). -/
def writeRun : S → List (String × Bytes) → Except String (List String × S)
  | s, [] => Except.ok ([], s)
  | s, (c, d) :: ws =>
    match write_file s c d with
    | Except.error e => Except.error e
    | Except.ok (t, s1) =>
      match writeRun s1 ws with
      | Except.ok (ts, s2) => Except.ok (t :: ts, s2)
      | Except.error e => Except.error e

theorem writeRun_nil (s : S) : writeRun s [] = Except.ok ([], s) := rfl

theorem writeRun_cons (s : S) (c : String) (d : Bytes) (ws : List (String × Bytes)) :
    writeRun s ((c, d) :: ws) =
      match write_file s c d with
      | Except.error e => Except.error e
      | Except.ok (t, s1) =>
        match writeRun s1 ws with
        | Except.ok (ts, s2) => Except.ok (t :: ts, s2)
        | Except.error e => Except.error e := rfl

theorem writeRun_cons_ok {s : S} {c : String} {d : Bytes} {ws : List (String × Bytes)}
    {t : String} {s1 : S} (hw : write_file s c d = Except.ok (t, s1)) :
    writeRun s ((c, d) :: ws) =
      match writeRun s1 ws with
      | Except.ok (ts, s2) => Except.ok (t :: ts, s2)
      | Except.error e => Except.error e := by
  rw [writeRun_cons, hw]

/-- Simulation check for a run of writes: every write succeeds and claims a
target that does not yet exist in the output directory. -/
def freshTargets : S → List (String × Bytes) → Bool
  | _, [] => true
  | s, (c, d) :: ws =>
    match write_file s c d with
    | Except.error _ => false
    | Except.ok (t, s1) => !(existsFile s.files t) && freshTargets s1 ws

theorem freshTargets_nil (s : S) : freshTargets s [] = true := rfl

theorem freshTargets_cons (s : S) (c : String) (d : Bytes)
    (ws : List (String × Bytes)) :
    freshTargets s ((c, d) :: ws) =
      match write_file s c d with
      | Except.error _ => false
      | Except.ok (t, s1) => !(existsFile s.files t) && freshTargets s1 ws := rfl

/-- When every claimed target is fresh, a run of writes succeeds, all its
targets are pairwise distinct and absent beforehand, and the contents of
every file present before the run are untouched afterwards. -/
theorem writeRun_fresh_spec {s : S} {ws : List (String × Bytes)}
    (hf : freshTargets s ws = true) :
    ∃ ts s2, writeRun s ws = Except.ok (ts, s2) ∧ ts.Nodup ∧
      (∀ x ∈ ts, existsFile s.files x = false) ∧
      ∀ n b, lookupFile s.files n = some b → lookupFile s2.files n = some b := by
  induction ws generalizing s with
  | nil =>
    exact ⟨[], s, writeRun_nil s, List.nodup_nil, by simp, fun n b hb => hb⟩
  | cons p ws ih =>
    obtain ⟨c, d⟩ := p
    rw [freshTargets_cons] at hf
    cases hw : write_file s c d with
    | error e => rw [hw] at hf; exact absurd hf (by simp)
    | ok q =>
      obtain ⟨t, s1⟩ := q
      rw [hw] at hf
      simp only [Bool.and_eq_true, Bool.not_eq_true'] at hf
      obtain ⟨hft, hf1⟩ := hf
      obtain ⟨ts, s2, hrun, hnd, habs, hpres⟩ := ih hf1
      obtain ⟨hfiles, _, _, _, _, _⟩ := write_file_ok_inv hw
      have hmono : ∀ x, existsFile s.files x = true → existsFile s1.files x = true := by
        intro x hx
        rw [hfiles]
        exact existsFile_setFile_of _ _ _ hx
      have habs0 : ∀ x ∈ ts, existsFile s.files x = false := by
        intro x hx
        cases hsx : existsFile s.files x with
        | false => rfl
        | true => exact absurd (habs x hx) (by simp [hmono x hsx])
      have htnotin : t ∉ ts := by
        intro ht
        have h1 := habs t ht
        rw [hfiles, existsFile_setFile] at h1
        simp at h1
      refine ⟨t :: ts, s2, ?_, List.nodup_cons.mpr ⟨htnotin, hnd⟩, ?_, ?_⟩
      · rw [writeRun_cons_ok hw, hrun]
      · intro x hx
        rcases List.mem_cons.mp hx with hx | hx
        · rw [hx]; exact hft
        · exact habs0 x hx
      · intro n b hb
        apply hpres
        rw [hfiles, lookupFile_setFile]
        have hnt : n ≠ t := by
          intro hnt
          subst hnt
          rw [show existsFile s.files n = true from by simp [existsFile, hb]] at hft
          exact absurd hft (by simp)
        rw [if_neg fun ht => hnt ht.symm]
        exact hb

/-- The sequence of collision-resolved names issued by consecutive colliding
writes: one `{timestamp}-{counter:04}-{base}` name per write, the clock
reading consumed and the counter incremented once each. -/
def collisionTargets (clock : List Nat) (ctr : Nat) (base : String) : Nat → List String
  | 0 => []
  | n + 1 =>
    collName (clock.headD 0) ctr base :: collisionTargets clock.tail (ctr + 1) base n

theorem mem_collisionTargets {clock : List Nat} {ctr : Nat} {base : String} {n : Nat}
    {x : String} (hx : x ∈ collisionTargets clock ctr base n) :
    ∃ ts k, x = collName ts k base ∧ ctr ≤ k ∧ k < ctr + n := by
  induction n generalizing clock ctr with
  | zero => simp [collisionTargets] at hx
  | succ n ih =>
    simp only [collisionTargets, List.mem_cons] at hx
    rcases hx with hx | hx
    · exact ⟨clock.headD 0, ctr, hx, Nat.le_refl _, by omega⟩
    · obtain ⟨ts, k, h1, h2, h3⟩ := ih hx
      exact ⟨ts, k, h1, by omega, by omega⟩

theorem collisionTargets_nodup (clock : List Nat) (ctr : Nat) (base : String)
    (n : Nat) : (collisionTargets clock ctr base n).Nodup := by
  induction n generalizing clock ctr with
  | zero => exact List.nodup_nil
  | succ n ih =>
    refine List.nodup_cons.mpr ⟨?_, ih clock.tail (ctr + 1)⟩
    intro hmem
    obtain ⟨ts, k, h1, h2, h3⟩ := mem_collisionTargets hmem
    obtain ⟨_, hk⟩ := collName_inj h1
    omega

theorem base_notin_collisionTargets (clock : List Nat) (ctr : Nat) (base : String)
    (n : Nat) : base ∉ collisionTargets clock ctr base n := by
  intro hmem
  obtain ⟨ts, k, h1, _, _⟩ := mem_collisionTargets hmem
  exact collName_ne_base ts k base h1.symm

theorem writeRun_collide_run {s : S} {c : String} {ds : List Bytes}
    (hbad : s.bad = []) (hex : existsFile s.files c = true) :
    ∃ s2, writeRun s (ds.map fun d => (c, d)) =
        Except.ok (collisionTargets s.clock s.counter c ds.length, s2) ∧
      s2.counter = s.counter + ds.length := by
  induction ds generalizing s with
  | nil => exact ⟨s, by simp [writeRun_nil, collisionTargets], by simp⟩
  | cons d ds ih =>
    have hcont : s.bad.contains (collName (s.clock.headD 0) s.counter c) = false := by
      rw [hbad]
      rfl
    have hw := write_file_collide d hex hcont
    have hbad1 : ({ s with
        counter := s.counter + 1
        clock := s.clock.tail
        files := setFile s.files (collName (s.clock.headD 0) s.counter c) d } : S).bad
        = [] := hbad
    have hex1 : existsFile ({ s with
        counter := s.counter + 1
        clock := s.clock.tail
        files := setFile s.files (collName (s.clock.headD 0) s.counter c) d } : S).files c
        = true := existsFile_setFile_of _ _ _ hex
    obtain ⟨s2, hrun, hctr⟩ := ih hbad1 hex1
    refine ⟨s2, ?_, ?_⟩
    · rw [List.map_cons, writeRun_cons_ok hw, hrun]
      rfl
    · rw [hctr]
      show s.counter + 1 + ds.length = s.counter + (d :: ds).length
      simp [List.length_cons]
      omega

/-- A fresh candidate followed by colliding writes: the first write claims
the bare candidate, each further write claims a distinct timestamp-counter
name, the counter advancing exactly once per collision. -/
theorem writeRun_unique_names {s : S} {c : String} {d0 : Bytes} {ds : List Bytes}
    (hbad : s.bad = []) (hex : existsFile s.files c = false) :
    ∃ s2, writeRun s ((d0 :: ds).map fun d => (c, d)) =
        Except.ok (c :: collisionTargets s.clock s.counter c ds.length, s2) ∧
      s2.counter = s.counter + ds.length ∧
      (c :: collisionTargets s.clock s.counter c ds.length).Nodup ∧
      (c :: collisionTargets s.clock s.counter c ds.length).count c = 1 := by
  have hcont : s.bad.contains c = false := by
    rw [hbad]
    rfl
  have hw := write_file_fresh d0 hex hcont
  have hbad1 : ({ s with files := setFile s.files c d0 } : S).bad = [] := hbad
  have hex1 : existsFile ({ s with files := setFile s.files c d0 } : S).files c
      = true := by
    show existsFile (setFile s.files c d0) c = true
    rw [existsFile_setFile]
    simp
  obtain ⟨s2, hrun, hctr⟩ := writeRun_collide_run hbad1 hex1
  refine ⟨s2, ?_, hctr, ?_, ?_⟩
  · rw [List.map_cons, writeRun_cons_ok hw, hrun]
  · exact List.nodup_cons.mpr
      ⟨base_notin_collisionTargets s.clock s.counter c ds.length,
        collisionTargets_nodup s.clock s.counter c ds.length⟩
  · rw [List.count_cons_self,
      List.count_eq_zero.mpr (base_notin_collisionTargets s.clock s.counter c ds.length)]

/-- The empty run state: empty output directory, counter 0, no clock
readings pending, no failing names, no records or log lines. -/
def emptyS : S := ⟨[], 0, [], [], [], [], [], none⟩

def tableC1 : Table :=
  [⟨some "a/x.wav", some [1], some "hi"⟩, ⟨some "b/y.wav", some [2], some "bye"⟩]

def sC1 : S := { emptyS with bad := ["x.wav"] }

/-- C1: the claim says a write failure on one row is reported for that row
only and does not stop sibling rows or abort the process.  The code violates
it: with two fully-present rows and a filesystem on which the first row's
target cannot be created, `process_file` hits
`write_file(...).expect("Failed to write audio file")` and panics
(`Outcome.fatal`), aborting the whole process; the sibling row is never
extracted. -/
theorem claim_C1_write_failure_aborts :
    process_file (Except.ok tableC1) sC1 = Outcome.fatal "write failed" ∧
      (presentRows tableC1).length = 2 := by
  constructor
  · rfl
  · rfl

def tableC2 : Table := [⟨none, some [1], some "hi"⟩]

/-- Returned row count of a `process_file` call, when it succeeds. -/
def processCount (d : Except String Table) (s : S) : Option Nat :=
  match process_file d s with
  | Outcome.ok (n, _) => some n
  | _ => none

/-- C2 counterexample: a table with a single row whose `path` field is null
has zero rows with all required fields present, yet `process_file` returns
`Ok(num_rows)` with `num_rows = df.height() = 1` — the null row is skipped
for extraction but still counted. -/
theorem claim_C2_counterexample :
    processCount (Except.ok tableC2) emptyS = some 1 ∧
      (presentRows tableC2).length = 0 := by
  constructor
  · rfl
  · rfl

/-- C2 amended: `process_file` returns the total number of rows of the
decoded table (its height), null-field rows included; such rows are skipped
for extraction and metadata but still counted in the returned value. -/
theorem claim_C2_amended {t : Table} {s : S} {n : Nat} {s1 : S}
    (h : process_file (Except.ok t) s = Outcome.ok (n, s1)) : n = t.length := by
  obtain ⟨t2, ms, s2, hd, _, hn, _⟩ := process_file_ok_inv h
  injection hd with hd
  rw [hn, hd]

theorem claim_C2_amended_witness :
    process_file (Except.ok tableC2) emptyS = Outcome.ok (1, emptyS) ∧
      (1 : Nat) = tableC2.length :=
  ⟨by rfl, claim_C2_amended (t := tableC2) (s := emptyS) (by rfl)⟩

def sC3 : S :=
  { emptyS with files := [("x.wav", [1]), ("100-0000-x.wav", [2])], clock := [100] }

/-- Resolved target of a single `write_file` call, when it succeeds. -/
def writeResultTarget (s : S) (c : String) (d : Bytes) : Option String :=
  match write_file s c d with
  | Except.ok (t, _) => some t
  | Except.error _ => none

/-- Contents at a name after a single `write_file` call, when it succeeds. -/
def writeResultFileAt (s : S) (c : String) (d : Bytes) (n : String) : Option Bytes :=
  match write_file s c d with
  | Except.ok (_, s1) => lookupFile s1.files n
  | Except.error _ => none

/-- C3 counterexample: the output directory already holds `x.wav` and a file
named `100-0000-x.wav` (for instance produced by an earlier run of the very
same tool and fed back as data).  A write of candidate `x.wav` at clock
reading 100 with counter 0 resolves to the generated name `100-0000-x.wav`
and `File::create` silently truncates and overwrites the pre-existing file's
bytes `[2]` with `[9]` — the code checks existence of the candidate only,
never of the generated name. -/
theorem claim_C3_counterexample :
    collName 100 0 "x.wav" = "100-0000-x.wav" ∧
      lookupFile sC3.files "100-0000-x.wav" = some [2] ∧
      writeResultTarget sC3 "x.wav" [9] = some "100-0000-x.wav" ∧
      writeResultFileAt sC3 "x.wav" [9] "100-0000-x.wav" = some [9] := by
  refine ⟨by decide, by rfl, by decide, by decide⟩

/-- C3 amended: no write ever overwrites through the bare candidate path; an
overwrite can happen only when a generated `{timestamp}-{counter:04}-{name}`
string coincides with an existing name.  Provided every resolved target is
fresh — none coincides with a pre-existing file or one written earlier in
the run, which covers a second run over the same output directory — the run
succeeds, claims pairwise-distinct targets and leaves the bytes of every
pre-existing file untouched. -/
theorem claim_C3_amended {s : S} {ws : List (String × Bytes)}
    (hf : freshTargets s ws = true) :
    ∃ ts s2, writeRun s ws = Except.ok (ts, s2) ∧ ts.Nodup ∧
      ∀ n b, lookupFile s.files n = some b → lookupFile s2.files n = some b := by
  obtain ⟨ts, s2, h1, h2, _, h4⟩ := writeRun_fresh_spec hf
  exact ⟨ts, s2, h1, h2, h4⟩

def sW3 : S := { emptyS with files := [("old.wav", [7])], clock := [100] }

theorem claim_C3_amended_witness :
    freshTargets sW3 [("x.wav", [1]), ("x.wav", [2])] = true ∧
      (∃ ts s2, writeRun sW3 [("x.wav", [1]), ("x.wav", [2])] = Except.ok (ts, s2) ∧
        ts.Nodup ∧
        ∀ n b, lookupFile sW3.files n = some b → lookupFile s2.files n = some b) :=
  ⟨by decide, claim_C3_amended (by decide)⟩

/-- C4: for rows of one run whose derived basenames collide on candidate `c`
(absent beforehand, all writes succeeding), the resolved targets are the
bare candidate followed by one `{timestamp}-{counter:04}-{c}` name per
collision; they are pairwise distinct, exactly one equals the bare
candidate, and the process-wide counter advances exactly once per collision
— distinctness relies only on the counter, so it holds even when all clock
readings are the same instant. -/
theorem claim_C4_unique_collision_names {s : S} {c : String} {d0 : Bytes}
    {ds : List Bytes} (hbad : s.bad = []) (hex : existsFile s.files c = false) :
    ∃ s2, writeRun s ((d0 :: ds).map fun d => (c, d)) =
        Except.ok (c :: collisionTargets s.clock s.counter c ds.length, s2) ∧
      s2.counter = s.counter + ds.length ∧
      (c :: collisionTargets s.clock s.counter c ds.length).Nodup ∧
      (c :: collisionTargets s.clock s.counter c ds.length).count c = 1 :=
  writeRun_unique_names hbad hex

def sW4 : S := { emptyS with clock := [100, 100] }

theorem claim_C4_witness :
    sW4.bad = [] ∧ existsFile sW4.files "x.wav" = false ∧
      collisionTargets sW4.clock sW4.counter "x.wav" 2
        = ["100-0000-x.wav", "100-0001-x.wav"] ∧
      (∃ s2, writeRun sW4 (([[1], [2], [3]] : List Bytes).map fun d => ("x.wav", d)) =
          Except.ok ("x.wav" :: collisionTargets sW4.clock sW4.counter "x.wav" 2, s2) ∧
        s2.counter = sW4.counter + 2 ∧
        ("x.wav" :: collisionTargets sW4.clock sW4.counter "x.wav" 2).Nodup ∧
        ("x.wav" :: collisionTargets sW4.clock sW4.counter "x.wav" 2).count "x.wav" = 1) :=
  ⟨rfl, rfl, by decide, claim_C4_unique_collision_names rfl rfl⟩

/-- C5: after a completed run, the number of records in the metadata
aggregator equals the initial count plus, for every successfully processed
file, the number of its rows with all required fields non-null; files that
fail to decode or validate contribute no record, and a write failure aborts
the run before it completes, so it contributes none either. -/
theorem claim_C5_metadata_completeness {s : S} {inputs : List (Except String Table)}
    {n : Nat} {s1 : S} (h : runDir s inputs = Outcome.ok (n, s1)) :
    s1.metadata.length = s.metadata.length + (inputs.map metaCount).sum :=
  (runDir_ok_inv h).2.1

def inputsW5 : List (Except String Table) :=
  [Except.ok [⟨some "a/x.wav", some [1], some "hi"⟩], Except.error "bad"]

def sFinW5 : S :=
  ⟨[("x.wav", [1])], 0, [], [], [("x.wav", "hi")], ["bad"],
    [processingLine, processingLine], none⟩

theorem claim_C5_witness :
    runDir emptyS inputsW5 = Outcome.ok (1, sFinW5) ∧
      sFinW5.metadata.length = emptyS.metadata.length + (inputsW5.map metaCount).sum := by
  have h : runDir emptyS inputsW5 = Outcome.ok (1, sFinW5) := by rfl
  exact ⟨h, claim_C5_metadata_completeness h⟩

/-- C6: in directory mode a per-file decode or validation failure is caught
and logged (one stderr line per failed file), contributes zero rows to the
total, and the loop continues: the completed run's total is exactly the sum
of the decoded heights of the remaining files. -/
theorem claim_C6_per_file_isolation {s : S} {inputs : List (Except String Table)}
    {n : Nat} {s1 : S} (h : runDir s inputs = Outcome.ok (n, s1)) :
    n = (inputs.map tableRows).sum ∧
      s1.elog.length = s.elog.length + (inputs.map errCount).sum :=
  ⟨(runDir_ok_inv h).1, (runDir_ok_inv h).2.2⟩

theorem claim_C6_witness :
    runDir emptyS inputsW5 = Outcome.ok (1, sFinW5) ∧
      ((1 : Nat) = (inputsW5.map tableRows).sum ∧
        sFinW5.elog.length = emptyS.elog.length + (inputsW5.map errCount).sum) := by
  have h : runDir emptyS inputsW5 = Outcome.ok (1, sFinW5) := by rfl
  exact ⟨h, claim_C6_per_file_isolation h⟩

def entriesC7 : List DirEntry := [⟨"a.arrow", true⟩]

/-- C7: the claim says directory mode selects exactly the regular files
whose extension matches the configured container format.  The code filters
for `parquet`-or-`arrow` extensions regardless of the configured format (a
TODO in the source flags this): with format `parquet`, a directory holding
`a.arrow` is selected and processed by the code, while the spec's filter
selects nothing. -/
theorem claim_C7_filter_ignores_format :
    selectFiles entriesC7 = entriesC7 ∧
      selectFilesSpec Format.parquet entriesC7 = [] := by
  constructor
  · rfl
  · rfl

/-- Stated from the spec sentence, for comparison with `candidateName`: the
candidate output name is exactly the basename of the source path (file stem
plus extension, directory components discarded); a source path with no
extension thus yields its bare stem. -/
def candidateSpec (p : String) : String := ⟨basenameChars p.data⟩

/-- C8 counterexample: for the extension-less source path `dir/noext` the
code formats `"{stem}.{ext}"` with an empty extension and derives the
candidate `noext.` — stem plus a trailing dot — not the bare stem `noext`
required by the claim. -/
theorem claim_C8_counterexample :
    candidateName "dir/noext" = "noext." ∧ candidateSpec "dir/noext" = "noext" := by
  constructor
  · decide
  · decide

/-- C8 amended: the candidate is `{file_stem}.{extension-or-empty}` of the
source path's basename.  When the basename has an extension this equals the
basename itself; when it has none the candidate is the bare stem followed by
a trailing dot. -/
theorem claim_C8_amended (p : String) :
    ((splitName (basenameChars p.data)).2.isSome →
      (candidateName p).data = basenameChars p.data) ∧
    ((splitName (basenameChars p.data)).2 = none →
      (candidateName p).data = basenameChars p.data ++ ['.']) := by
  constructor
  · intro hsome
    obtain ⟨ex, hex⟩ := Option.isSome_iff_exists.mp hsome
    have hsplit : splitName (basenameChars p.data)
        = ((splitName (basenameChars p.data)).1, some ex) := by
      rw [← hex]
    have hrec := splitName_some hsplit
    show (splitName (basenameChars p.data)).1
        ++ '.' :: ((splitName (basenameChars p.data)).2.getD []) = basenameChars p.data
    rw [hex]
    exact hrec.symm
  · intro hnone
    have hsplit : splitName (basenameChars p.data)
        = ((splitName (basenameChars p.data)).1, none) := by
      rw [← hnone]
    have hst := splitName_none hsplit
    show (splitName (basenameChars p.data)).1
        ++ '.' :: ((splitName (basenameChars p.data)).2.getD []) = basenameChars p.data ++ ['.']
    rw [hst, hnone]
    rfl

theorem claim_C8_amended_witness :
    (candidateName "a/x.wav").data = basenameChars ("a/x.wav").data ∧
      (candidateName "dir/noext").data = basenameChars ("dir/noext").data ++ ['.'] :=
  ⟨(claim_C8_amended "a/x.wav").1 (by decide),
    (claim_C8_amended "dir/noext").2 (by decide)⟩

def rowsC9 : List GoodRow :=
  [⟨"100-0000-x.wav", [1], "t1"⟩, ⟨"a/x.wav", [5], "t2"⟩, ⟨"b/x.wav", [7], "t3"⟩]

def sC9 : S := { emptyS with clock := [100] }

/-- Metadata pairs reported by a successful extraction run. -/
def extractMeta (s : S) (rows : List GoodRow) : Option (List (String × String)) :=
  match extractRows s rows with
  | Outcome.ok (ms, _) => some ms
  | _ => none

/-- Bytes stored at a name after a successful extraction run. -/
def extractFileAt (s : S) (rows : List GoodRow) (n : String) : Option Bytes :=
  match extractRows s rows with
  | Outcome.ok (_, s2) => lookupFile s2.files n
  | _ => none

/-- C9 counterexample: row 1 (source basename `100-0000-x.wav`, payload
`[1]`) is successfully extracted to that bare name and reported in the
metadata, but row 3's collision on `x.wav` resolves — at clock reading 100,
counter 0 — to the very same generated name and `File::create` overwrites it
with `[7]`; the bytes stored at row 1's resolved target no longer equal its
payload. -/
theorem claim_C9_counterexample :
    extractMeta sC9 rowsC9
      = some [("100-0000-x.wav", "t1"), ("x.wav", "t2"), ("100-0000-x.wav", "t3")] ∧
      extractFileAt sC9 rowsC9 "100-0000-x.wav" = some [7] ∧
      rowsC9.head?.map GoodRow.bytes = some [1] := by
  refine ⟨by decide, by decide, by decide⟩

/-- C9 amended: for every row successfully extracted in a run whose resolved
target paths are pairwise distinct, the bytes stored at the row's resolved
target path at the end of the run equal the row's original payload exactly;
distinctness can fail only when a generated timestamp-counter name coincides
with another row's target. -/
theorem claim_C9_roundtrip_amended {s : S} {rows : List GoodRow}
    {ms : List (String × String)} {s2 : S}
    (h : extractRows s rows = Outcome.ok (ms, s2))
    (hnd : (ms.map Prod.fst).Nodup) :
    ∀ pr ∈ List.zip (ms.map Prod.fst) (rows.map GoodRow.bytes),
      lookupFile s2.files pr.1 = some pr.2 :=
  extractRows_roundtrip h hnd

def rowsW9 : List GoodRow := [⟨"a/x.wav", [1], "t1"⟩, ⟨"b/y.wav", [2], "t2"⟩]

def msW9 : List (String × String) := [("x.wav", "t1"), ("y.wav", "t2")]

def sFinW9 : S := ⟨[("x.wav", [1]), ("y.wav", [2])], 0, [], [], [], [], [], none⟩

theorem claim_C9_roundtrip_witness :
    extractRows emptyS rowsW9 = Outcome.ok (msW9, sFinW9) ∧
      ∀ pr ∈ List.zip (msW9.map Prod.fst) (rowsW9.map GoodRow.bytes),
        lookupFile sFinW9.files pr.1 = some pr.2 := by
  have h : extractRows emptyS rowsW9 = Outcome.ok (msW9, sFinW9) := by rfl
  exact ⟨h, claim_C9_roundtrip_amended h (by decide)⟩

/-- C10: in single-file mode a decode or validation error is not caught as a
per-file skip: it propagates out of `main` through `?`, the run fails after
only the progress line was printed — no total-row-count line is printed and
the metadata file is not produced — unlike directory mode, which logs the
error and continues. -/
theorem claim_C10_single_mode_error_propagates (e : String) (mw : Bool) (s : S) :
    mainSingle (Except.error e) mw s
        = MainOut.fail e { s with out := s.out ++ [processingLine] } ∧
      ({ s with out := s.out ++ [processingLine] } : S).metaOut = s.metaOut :=
  ⟨rfl, rfl⟩
